import Mathlib

/-!
# Verification of `internal/metrics/api/rest/github.go`

Shallow embedding of the pure parts of the GitHub metrics fetchers: the URL
translation, the merged pull-request pagination loop, the default-branch
extraction and the version-pinning score.

Modelling conventions.
* A Go `string` is modelled as `List Char` (a sequence of code points); the
  library functions `strings.Index`, `strings.Split`, `strings.TrimSpace` and
  `strings.Trim` are modelled after their documented behaviour.
* A run-time panic (index or slice out of range) is the value `none`.
* The network is an explicit argument: the response body, or the list of
  responses the GraphQL client serves in order.
* A finite `float64` is modelled as the rational it denotes; `+` and `/` on
  `float64` round the exact result to the nearest `float64`, ties to even.
-/

namespace Github

/-! ## Go string library -/

/-- Position of the first occurrence of `substr` in `s`, if any. -/
def indexOf? (substr : List Char) : List Char → Option Nat
  | [] => if substr.isPrefixOf [] then some 0 else none
  | c :: cs =>
    if substr.isPrefixOf (c :: cs) then some 0
    else (indexOf? substr cs).map (fun i => i + 1)

/-- Go `strings.Index`: index of the first instance of `substr` in `s`, or `-1`. -/
def Index (s substr : List Char) : Int :=
  match indexOf? substr s with
  | some i => (i : Int)
  | none => -1

/-- Go slice expression `s[lo:]`; `none` models the out-of-range panic. -/
def sliceFrom (s : List Char) (lo : Int) : Option (List Char) :=
  if 0 ≤ lo ∧ lo ≤ (s.length : Int) then some (s.drop lo.toNat) else none

/-- Go slice expression `s[lo:hi]`; `none` models the out-of-range panic. -/
def slice (s : List Char) (lo hi : Int) : Option (List Char) :=
  if 0 ≤ lo ∧ lo ≤ hi ∧ hi ≤ (s.length : Int) then
    some ((s.drop lo.toNat).take (hi.toNat - lo.toNat))
  else none

/-- Go index expression `a[i]` on a slice of strings; `none` models the panic. -/
def at? (a : List (List Char)) (i : Int) : Option (List Char) :=
  if 0 ≤ i ∧ i < (a.length : Int) then a.get? i.toNat else none

/-- The loop of Go `strings.genSplit` for a non-empty separator: cut at the
first instance of `sep`, continue on the rest; `n` bounds the iterations. -/
def genSplit (sep : List Char) : Nat → List Char → List (List Char)
  | 0, s => [s]
  | n + 1, s =>
    match indexOf? sep s with
    | none => [s]
    | some m => s.take m :: genSplit sep n (s.drop (m + sep.length))

/-- Go `strings.Split`. For an empty separator the string is exploded into its
code points; otherwise the loop runs at most `len(s)` times (Go caps the
number of pieces at `len(s)+1`). -/
def Split (s sep : List Char) : List (List Char) :=
  if sep = [] then s.map (fun c => [c]) else genSplit sep s.length s

/-- Go `unicode.IsSpace`. -/
def isSpace (c : Char) : Bool :=
  let n := c.toNat
  (0x09 ≤ n && n ≤ 0x0d) || n == 0x20 || n == 0x85 || n == 0xA0 || n == 0x1680 ||
  (0x2000 ≤ n && n ≤ 0x200a) || n == 0x2028 || n == 0x2029 || n == 0x202f ||
  n == 0x205f || n == 0x3000

/-- Go `strings.TrimSpace`. -/
def TrimSpace (s : List Char) : List Char :=
  ((s.dropWhile isSpace).reverse.dropWhile isSpace).reverse

/-- Go `strings.Trim`: remove all leading and trailing code points contained in `cutset`. -/
def Trim (s cutset : List Char) : List Char :=
  ((s.dropWhile (fun c => cutset.contains c)).reverse.dropWhile
    (fun c => cutset.contains c)).reverse

/-! ## URL translation -/

/-- The web-host prefix every fetcher splits on. -/
def githubPrefix : List Char := "https://github.com/".toList

/-- The two statements `link := strings.Split(httpUrl, "https://github.com/")`
and `link[len(link)-1]` shared by all fetchers. -/
def lastLink (httpUrl : List Char) : Option (List Char) :=
  let link := Split httpUrl githubPrefix
  at? link ((link.length : Int) - 1)

/-- `REST_api_link` of `GetPullRequestsResponse`. -/
def GetPullRequestsResponse_link (httpUrl : List Char) : Option (List Char) :=
  (lastLink httpUrl).map
    (fun seg => "https://api.github.com/repos/".toList ++ seg ++ "/pulls?state=closed".toList)

/-- The string returned by `GetCodeTabResponse`. -/
def GetCodeTabResponse (httpurl : List Char) : Option (List Char) :=
  (lastLink httpurl).map (fun seg => "https://api.codetabs.com/v1/loc?github=".toList ++ seg)

/-- `REST_api_link` of `GetRepoResponse`. -/
def GetRepoResponse_link (httpUrl : List Char) : Option (List Char) :=
  (lastLink httpUrl).map (fun seg => "https://api.github.com/repos/".toList ++ seg)

/-- `REST_api_link` of `GetContributorResponse`. -/
def GetContributorResponse_link (httpUrl : List Char) : Option (List Char) :=
  (lastLink httpUrl).map
    (fun seg => "https://api.github.com/repos/".toList ++ seg ++ "/contributors".toList)

/-- `REST_api_link` of `GetDefaultBranchName`. -/
def GetDefaultBranchName_link (httpUrl : List Char) : Option (List Char) :=
  (lastLink httpUrl).map (fun seg => "https://api.github.com/repos/".toList ++ seg)

/-- `REST_api_link` of `GetVersionPinningResponse`, given the branch name that
`GetDefaultBranchName` returned. -/
def GetVersionPinningResponse_link (httpUrl defaultBranch : List Char) : Option (List Char) :=
  (lastLink httpUrl).map
    (fun seg => "https://raw.githubusercontent.com/".toList ++ seg ++ "/".toList ++
      defaultBranch ++ "/".toList ++ "/package.json".toList)

/-! ## Merged pull-request pagination -/

structure PullRequest where
  Number : Int
  deriving DecidableEq, Repr

structure PageInfo where
  EndCursor : List Char
  HasNextPage : Bool
  deriving DecidableEq, Repr

structure PullRequestConnection where
  PageInfo : PageInfo
  Edges : List PullRequest
  deriving DecidableEq, Repr

structure Repository where
  PullRequests : PullRequestConnection
  deriving DecidableEq, Repr

structure PRResponse where
  Repository : Repository
  deriving DecidableEq, Repr

/-- What a run of `GetNumberOfMergedPRs` does: the two values it returns
(`err = none` is Go's `nil`) and the `pullRequestCursor` variable of every
query it issued, in order (`none` is the nil cursor of the first query). -/
structure MergedPRsRun where
  count : Int
  err : Option String
  cursors : List (Option (List Char))
  deriving DecidableEq, Repr

/-- The `for` loop of `GetNumberOfMergedPRs`. The first argument lists what
`client.Query` answers to the successive queries (`Except.error` is a non-nil
`err`); `totalPRs` and `cursor` are the loop variables and `sent` the cursors
of the queries issued so far. When the listed answers run out while the loop
still wants to query there is no result. The Go `int` total is an unbounded
integer here. -/
def mergedPRsLoop : List (Except String PRResponse) → Int → Option (List Char) →
    List (Option (List Char)) → Option MergedPRsRun
  | [], _, _, _ => none
  | answer :: later, totalPRs, cursor, sent =>
    match answer with
    | Except.error err => some ⟨0, some err, sent ++ [cursor]⟩
    | Except.ok query =>
      let totalPRs := totalPRs + (query.Repository.PullRequests.Edges.length : Int)
      if !query.Repository.PullRequests.PageInfo.HasNextPage then
        some ⟨totalPRs, none, sent ++ [cursor]⟩
      else
        mergedPRsLoop later totalPRs (some query.Repository.PullRequests.PageInfo.EndCursor)
          (sent ++ [cursor])

/-- `GetNumberOfMergedPRs`, with the answers of the GraphQL client as argument. -/
def GetNumberOfMergedPRs (answers : List (Except String PRResponse)) : Option MergedPRsRun :=
  mergedPRsLoop answers 0 none []

/-- The `hasNextPage` flag of a page. -/
def hasNext (p : PRResponse) : Bool := p.Repository.PullRequests.PageInfo.HasNextPage

/-- The `len(edges)` of a page. -/
def edgeCount (p : PRResponse) : Int := (p.Repository.PullRequests.Edges.length : Int)

/-- The `endCursor` of a page. -/
def endCursor (p : PRResponse) : List Char := p.Repository.PullRequests.PageInfo.EndCursor

/-- Three served pages used to exercise the loop: two, one and five edges;
the second is the first without a next page. -/
def samplePages : List PRResponse :=
  [⟨⟨⟨⟨"c1".toList, true⟩, [⟨11⟩, ⟨12⟩]⟩⟩⟩,
   ⟨⟨⟨⟨"c2".toList, false⟩, [⟨13⟩]⟩⟩⟩,
   ⟨⟨⟨⟨"c3".toList, true⟩, [⟨14⟩, ⟨15⟩, ⟨16⟩, ⟨17⟩, ⟨18⟩]⟩⟩⟩]

/-! ## Default branch extraction -/

/-- The key token searched for in the response body, quotes included. -/
def defaultBranchKey : List Char := "\"default_branch\"".toList

/-- `start_index` of `GetDefaultBranchName`. -/
def start_index (contents : List Char) : Int :=
  Index contents defaultBranchKey + (defaultBranchKey.length : Int)

/-- `end_index` of `GetDefaultBranchName`; `none` when `contents[start_index:]` panics. -/
def end_index (contents : List Char) : Option Int :=
  (sliceFrom contents (start_index contents)).map
    (fun tail => Index tail ",".toList + start_index contents)

/-- The extraction of `GetDefaultBranchName` from the response body
(`contents := string(body)` up to `return defaultBranch`). -/
def GetDefaultBranchName (contents : List Char) : Option (List Char) :=
  (end_index contents).bind fun end_index =>
    (slice contents (start_index contents) end_index).map fun captured =>
      let defaultBranch := TrimSpace captured
      let defaultBranch := Trim defaultBranch "\"".toList
      let defaultBranch := Trim defaultBranch ":".toList
      let defaultBranch := Trim defaultBranch "\"".toList
      defaultBranch

/-! ## Version pinning -/

/-- The character class `[0-9]`. -/
def digitClass : RegularExpression Char :=
  RegularExpression.char '0' + RegularExpression.char '1' + RegularExpression.char '2' +
  RegularExpression.char '3' + RegularExpression.char '4' + RegularExpression.char '5' +
  RegularExpression.char '6' + RegularExpression.char '7' + RegularExpression.char '8' +
  RegularExpression.char '9'

/-- The expression `[0-9]+`. -/
def digitsPlus : RegularExpression Char := digitClass * RegularExpression.star digitClass

/-- The body of the pattern `^([0-9]+)(\.([0-9]+))*$`, between its anchors. -/
def pinPattern : RegularExpression Char :=
  digitsPlus * RegularExpression.star (RegularExpression.char '.' * digitsPlus)

/-- `r.MatchString(version)` for `r` the compiled pattern: with `^` and `$`
around the whole pattern (no multi-line flag) a match is a match of the whole
string. -/
def MatchString (version : List Char) : Bool := pinPattern.rmatch version

/-- Round to the nearest integer, ties to the even one. -/
def roundNearestEven (x : ℚ) : ℤ :=
  let f := ⌊x⌋
  let r := x - f
  if r < 1 / 2 then f
  else if 1 / 2 < r then f + 1
  else if f % 2 = 0 then f else f + 1

/-- Spacing of the `float64` values around `x`: `2 ^ (e - 52)` with `e` the
binary exponent of `x`, not below the exponent `-1022` of the subnormals. -/
def ulp (x : ℚ) : ℚ := (2 : ℚ) ^ (max (Int.log 2 |x|) (-1022) - 52)

/-- The `float64` nearest to `x` (IEEE 754 round to nearest, ties to even), as
a rational. Overflow to infinity (from `2 ^ 1024` on) is not modelled; the
values rounded here are at most `2 ^ 53 + 1`. -/
def roundFloat64 (x : ℚ) : ℚ := (roundNearestEven (x / ulp x) : ℚ) * ulp x

/-- Go `x + y` on `float64`. -/
def fadd (x y : ℚ) : ℚ := roundFloat64 (x + y)

/-- Go `x / y` on `float64`, for `y` other than zero (the scoring loop divides
by a counter that is at least 1). -/
def fdiv (x y : ℚ) : ℚ := roundFloat64 (x / y)

/-- One iteration of the scoring loop on the `float64` counters
`(total_counter, valid_counter)`. -/
def scoreStep (st : ℚ × ℚ) (version : List Char) : ℚ × ℚ :=
  if !(MatchString version) then (fadd st.1 1, st.2)
  else (fadd st.1 1, fadd st.2 1)

/-- The scoring step of `GetVersionPinningResponse`, from the length check on
the decoded map to the returned quotient; the result is the returned
`float64`. The map is given as the sequence of its entries in the order the
`range` loop visits them. -/
def pinningScore (dependencies : List (List Char × List Char)) : ℚ :=
  if dependencies.length = 0 then 1
  else
    let st := (dependencies.map Prod.snd).foldl scoreStep (0, 0)
    fdiv st.2 st.1

/-- Number of entries whose version string matches the pinning pattern. -/
def pinnedCount (dependencies : List (List Char × List Char)) : Nat :=
  dependencies.countP (fun d => MatchString d.2)

/-- The strings made of one or more non-empty runs of ASCII digits separated
by single dots. -/
def DottedDigits (s : List Char) : Prop :=
  ∃ (run : List Char) (runs : List (List Char)),
    (∀ r ∈ run :: runs, r ≠ [] ∧ ∀ c ∈ r, '0' ≤ c ∧ c ≤ '9') ∧
    s = List.intercalate ['.'] (run :: runs)

end Github

namespace Github

/-! ## Facts about the string library model -/

theorem indexOf?_none {sep : List Char} :
    ∀ {s : List Char}, indexOf? sep s = none → ¬ sep <:+: s := by
  intro s
  induction s with
  | nil =>
    intro h hin
    have hnil : sep = [] := List.eq_nil_of_infix_nil hin
    subst hnil
    simp [indexOf?] at h
  | cons c cs ih =>
    intro h hin
    unfold indexOf? at h
    split at h
    · simp at h
    · rename_i hpre
      rcases List.infix_cons_iff.mp hin with hp | hi
      · exact hpre (List.isPrefixOf_iff_prefix.mpr hp)
      · cases hrec : indexOf? sep cs with
        | none => exact ih hrec hi
        | some k => simp [hrec] at h

theorem indexOf?_some {sep : List Char} :
    ∀ {s : List Char} {m : Nat}, indexOf? sep s = some m →
      s = s.take m ++ (sep ++ s.drop (m + sep.length)) := by
  intro s
  induction s with
  | nil =>
    intro m h
    unfold indexOf? at h
    split at h
    · rename_i hpre
      have hnil : sep = [] := List.prefix_nil.mp (List.isPrefixOf_iff_prefix.mp hpre)
      subst hnil
      simp
    · simp at h
  | cons c cs ih =>
    intro m h
    unfold indexOf? at h
    split at h
    · rename_i hpre
      obtain ⟨t, ht⟩ := List.isPrefixOf_iff_prefix.mp hpre
      injection h with hm
      subst hm
      rw [← ht]
      simp
    · cases hrec : indexOf? sep cs with
      | none => simp [hrec] at h
      | some k =>
        simp [hrec] at h
        subst h
        have := ih hrec
        simp only [List.take_succ_cons, List.cons_append]
        rw [show k + 1 + sep.length = (k + sep.length) + 1 by omega, List.drop_succ_cons]
        exact congrArg (List.cons c) this

theorem indexOf?_le {sep : List Char} :
    ∀ {s : List Char} {m : Nat}, indexOf? sep s = some m →
      ∀ p q : List Char, s = p ++ (sep ++ q) → m ≤ p.length := by
  intro s
  induction s with
  | nil =>
    intro m h p q hs
    unfold indexOf? at h
    split at h
    · injection h with hm
      omega
    · simp at h
  | cons c cs ih =>
    intro m h p q hs
    unfold indexOf? at h
    split at h
    · injection h with hm
      omega
    · rename_i hpre
      cases hrec : indexOf? sep cs with
      | none => simp [hrec] at h
      | some k =>
        simp [hrec] at h
        subst h
        cases p with
        | nil =>
          exfalso
          apply hpre
          apply List.isPrefixOf_iff_prefix.mpr
          exact ⟨q, by simpa using hs.symm⟩
        | cons a p' =>
          simp only [List.cons_append, List.cons.injEq] at hs
          have := ih hrec p' q hs.2
          simp only [List.length_cons]
          omega

theorem indexOf?_isSome {sep s : List Char} (h : sep <:+: s) :
    ∃ m, indexOf? sep s = some m := by
  cases hr : indexOf? sep s with
  | none => exact absurd h (indexOf?_none hr)
  | some m => exact ⟨m, rfl⟩

theorem at?_last (a : List (List Char)) : at? a ((a.length : Int) - 1) = a.getLast? := by
  cases a with
  | nil => simp [at?]
  | cons x xs =>
    have h1 : (0 : Int) ≤ ((x :: xs).length : Int) - 1 := by
      simp only [List.length_cons]; push_cast; omega
    have h2 : ((x :: xs).length : Int) - 1 < ((x :: xs).length : Int) := by omega
    have h3 : (((x :: xs).length : Int) - 1).toNat = (x :: xs).length - 1 := by
      simp only [List.length_cons]; push_cast; omega
    rw [at?, if_pos ⟨h1, h2⟩, h3, List.getLast?_eq_getElem?]
    simp

/-- The last piece produced by the split loop: it is free of the separator and
is either the whole input (no separator in it) or what follows an instance. -/
theorem genSplit_last {sep : List Char} (hsep : sep ≠ []) :
    ∀ (n : Nat) (s : List Char), s.length ≤ n →
      ∃ seg, (genSplit sep n s).getLast? = some seg ∧ ¬ sep <:+: seg ∧
        ((¬ sep <:+: s ∧ seg = s) ∨ ∃ pre, s = pre ++ (sep ++ seg)) := by
  intro n
  induction n with
  | zero =>
    intro s hs
    have hnil : s = [] := List.length_eq_zero.mp (Nat.le_zero.mp hs)
    subst hnil
    have hno : ¬ sep <:+: [] := fun h => hsep (List.eq_nil_of_infix_nil h)
    exact ⟨[], by simp [genSplit], hno, Or.inl ⟨hno, rfl⟩⟩
  | succ n ih =>
    intro s hs
    cases hr : indexOf? sep s with
    | none =>
      have hno := indexOf?_none hr
      exact ⟨s, by simp [genSplit, hr], hno, Or.inl ⟨hno, rfl⟩⟩
    | some m =>
      have hdec := indexOf?_some hr
      have hpos : 0 < sep.length := List.length_pos.mpr hsep
      have hlen : (s.drop (m + sep.length)).length ≤ n := by
        simp only [List.length_drop]; omega
      obtain ⟨seg, hlast, hfree, hshape⟩ := ih _ hlen
      refine ⟨seg, ?_, hfree, Or.inr ?_⟩
      · simp [genSplit, hr, List.getLast?_cons, hlast]
      · rcases hshape with ⟨_, hseg⟩ | ⟨pre, hpre⟩
        · exact ⟨s.take m, by rw [hseg]; exact hdec⟩
        · refine ⟨s.take m ++ (sep ++ pre), ?_⟩
          rw [hpre] at hdec
          simpa using hdec

theorem githubPrefix_ne_nil : githubPrefix ≠ [] := by decide

/-- The separator has no proper overlap with itself. -/
theorem githubPrefix_no_border :
    ∀ k : Nat, k < 19 → 0 < k → ¬ (githubPrefix.drop k) <+: githubPrefix := by decide

theorem githubPrefix_length : githubPrefix.length = 19 := by decide

/-- An instance of the separator followed by separator-free text is the last
instance: no instance starts further right. -/
theorem last_occurrence {pre seg p q : List Char} (hfree : ¬ githubPrefix <:+: seg)
    (h : pre ++ (githubPrefix ++ seg) = p ++ (githubPrefix ++ q)) :
    p.length ≤ pre.length := by
  by_contra hlt
  rcases List.append_eq_append_iff.mp h with ⟨a, hp, hrest⟩ | ⟨c, hpre, _⟩
  · have ha : 0 < a.length := by
      have := congrArg List.length hp
      simp only [List.length_append] at this
      omega
    rcases List.append_eq_append_iff.mp hrest with ⟨x, _, hseg⟩ | ⟨c, hgp, hq⟩
    · apply hfree
      exact ⟨x, q, by rw [hseg]; simp⟩
    · -- githubPrefix = a ++ c and githubPrefix ++ q = c ++ seg: c is a border
      have hlen : a.length + c.length = 19 := by
        have := congrArg List.length hgp
        rw [List.length_append, githubPrefix_length] at this
        omega
      have hc : c = githubPrefix.drop a.length := by
        rw [hgp]; simp
      by_cases hk : a.length < 19
      · apply githubPrefix_no_border a.length hk ha
        rw [← hc]
        have h1 : c <+: githubPrefix ++ q := ⟨seg, hq.symm⟩
        have h2 : githubPrefix <+: githubPrefix ++ q := List.prefix_append _ _
        exact List.prefix_of_prefix_length_le h1 h2 (by rw [githubPrefix_length]; omega)
      · have hc0 : c = [] := List.length_eq_zero.mp (by omega)
        subst hc0
        apply hfree
        exact ⟨[], q, by simpa using hq⟩
  · have := congrArg List.length hpre
    rw [List.length_append] at this
    omega

/-- The translation never fails, and the segment it extracts is free of the
separator and is the whole input or the text after the last separator. -/
theorem lastLink_spec (u : List Char) :
    ∃ seg, lastLink u = some seg ∧ ¬ githubPrefix <:+: seg ∧
      ((¬ githubPrefix <:+: u ∧ seg = u) ∨
        ∃ pre, u = pre ++ (githubPrefix ++ seg) ∧
          ∀ p q : List Char, u = p ++ (githubPrefix ++ q) → p.length ≤ pre.length) := by
  obtain ⟨seg, hlast, hfree, hshape⟩ := genSplit_last githubPrefix_ne_nil u.length u le_rfl
  refine ⟨seg, ?_, hfree, ?_⟩
  · simp only [lastLink, at?_last, Split, if_neg githubPrefix_ne_nil]
    exact hlast
  · rcases hshape with hl | ⟨pre, hpre⟩
    · exact Or.inl hl
    · refine Or.inr ⟨pre, hpre, ?_⟩
      intro p q hpq
      exact last_occurrence hfree (hpre.symm.trans hpq)

/-- Claim C3: for every input the URL translation succeeds; the segment it
extracts is the whole input when the input does not contain the web-host
prefix and otherwise the text after the last occurrence of the prefix; every
endpoint is its target prefix, the segment and its resource suffix. The
example URL of foo/bar gives the contributors endpoint of foo/bar. -/
theorem C3_url_translation (u : List Char) :
    (∃ seg, lastLink u = some seg ∧
      ((¬ githubPrefix <:+: u ∧ seg = u) ∨
        ∃ pre, u = pre ++ (githubPrefix ++ seg) ∧
          ∀ p q : List Char, u = p ++ (githubPrefix ++ q) → p.length ≤ pre.length) ∧
      GetContributorResponse_link u =
        some ("https://api.github.com/repos/".toList ++ seg ++ "/contributors".toList) ∧
      GetPullRequestsResponse_link u =
        some ("https://api.github.com/repos/".toList ++ seg ++ "/pulls?state=closed".toList) ∧
      GetRepoResponse_link u = some ("https://api.github.com/repos/".toList ++ seg) ∧
      GetDefaultBranchName_link u = some ("https://api.github.com/repos/".toList ++ seg) ∧
      GetCodeTabResponse u =
        some ("https://api.codetabs.com/v1/loc?github=".toList ++ seg)) ∧
    GetContributorResponse_link "https://github.com/foo/bar".toList =
      some "https://api.github.com/repos/foo/bar/contributors".toList := by
  refine ⟨?_, by decide⟩
  obtain ⟨seg, hlast, _, hshape⟩ := lastLink_spec u
  refine ⟨seg, hlast, hshape, ?_, ?_, ?_, ?_, ?_⟩ <;>
    simp [GetContributorResponse_link, GetPullRequestsResponse_link, GetRepoResponse_link,
      GetDefaultBranchName_link, GetCodeTabResponse, hlast]

/-- Claim C9: the segment extraction is idempotent: extracting from an
extracted segment succeeds and gives the same segment again. -/
theorem C9_segment_idempotent (u : List Char) :
    ∃ seg, lastLink u = some seg ∧ lastLink seg = some seg := by
  obtain ⟨seg, hlast, hfree, _⟩ := lastLink_spec u
  refine ⟨seg, hlast, ?_⟩
  obtain ⟨seg2, hlast2, _, hshape2⟩ := lastLink_spec seg
  rcases hshape2 with ⟨_, heq⟩ | ⟨pre, hpre, _⟩
  · rw [hlast2, heq]
  · exact absurd ⟨pre, seg2, by rw [hpre]; simp⟩ hfree


/-! ## Pagination -/

theorem mergedPRsLoop_done (pre : List PRResponse) (last : PRResponse)
    (later : List (Except String PRResponse))
    (hpre : ∀ p ∈ pre, hasNext p = true) (hlast : hasNext last = false) :
    ∀ (totalPRs : Int) (cursor : Option (List Char)) (sent : List (Option (List Char))),
      mergedPRsLoop (pre.map Except.ok ++ Except.ok last :: later) totalPRs cursor sent =
        some ⟨totalPRs + (pre.map edgeCount).sum + edgeCount last, none,
          sent ++ cursor :: pre.map (fun p => some (endCursor p))⟩ := by
  induction pre with
  | nil =>
    intro totalPRs cursor sent
    have hl : last.Repository.PullRequests.PageInfo.HasNextPage = false := hlast
    simp [mergedPRsLoop, hl, edgeCount]
  | cons a pre ih =>
    intro totalPRs cursor sent
    have ha : a.Repository.PullRequests.PageInfo.HasNextPage = true :=
      hpre a (List.mem_cons_self _ _)
    have ih2 := ih (fun p hp => hpre p (List.mem_cons_of_mem _ hp))
    simp only [List.map_cons, List.cons_append, mergedPRsLoop, ha, Bool.not_true, List.sum_cons]
    rw [if_neg (by simp)]
    refine (ih2 _ _ _).trans ?_
    simp [edgeCount, endCursor, add_assoc]

theorem mergedPRsLoop_fail (pre : List PRResponse) (e : String)
    (later : List (Except String PRResponse)) (hpre : ∀ p ∈ pre, hasNext p = true) :
    ∀ (totalPRs : Int) (cursor : Option (List Char)) (sent : List (Option (List Char))),
      mergedPRsLoop (pre.map Except.ok ++ Except.error e :: later) totalPRs cursor sent =
        some ⟨0, some e, sent ++ cursor :: pre.map (fun p => some (endCursor p))⟩ := by
  induction pre with
  | nil =>
    intro totalPRs cursor sent
    simp [mergedPRsLoop]
  | cons a pre ih =>
    intro totalPRs cursor sent
    have ha : a.Repository.PullRequests.PageInfo.HasNextPage = true :=
      hpre a (List.mem_cons_self _ _)
    have ih2 := ih (fun p hp => hpre p (List.mem_cons_of_mem _ hp))
    simp only [List.map_cons, List.cons_append, mergedPRsLoop, ha, Bool.not_true]
    rw [if_neg (by simp)]
    refine (ih2 _ _ _).trans ?_
    simp [endCursor]

theorem first_false_split (pages : List PRResponse) (h : ∃ p ∈ pages, hasNext p = false) :
    ∃ pre last later, pages = pre ++ last :: later ∧
      (∀ p ∈ pre, hasNext p = true) ∧ hasNext last = false := by
  induction pages with
  | nil =>
    obtain ⟨p, hp, _⟩ := h
    cases hp
  | cons a rest ih =>
    cases ha : hasNext a with
    | false => exact ⟨[], a, rest, rfl, by simp, ha⟩
    | true =>
      obtain ⟨p, hp, hpf⟩ := h
      rcases List.mem_cons.mp hp with heq | hmem
      · rw [heq, ha] at hpf
        cases hpf
      · obtain ⟨pre, last, later, hsplit, hpre, hlast⟩ := ih ⟨p, hmem, hpf⟩
        refine ⟨a :: pre, last, later, by rw [hsplit]; rfl, ?_, hlast⟩
        intro q hq
        rcases List.mem_cons.mp hq with hqa | hqm
        · rw [hqa]; exact ha
        · exact hpre q hqm

/-- Claim C4: when every query succeeds and some served page has
hasNextPage = false, the served pages split as `pre ++ last :: later` with
`last` the first page whose flag is false; the function returns, with a nil
error, the sum of the edge counts of `pre ++ [last]`, and it issued exactly one
query for each of those pages (the nil cursor, then the end cursor of each page
of `pre`), none for `later`. -/
theorem C4_merged_pr_total (pages : List PRResponse)
    (h : ∃ p ∈ pages, hasNext p = false) :
    ∃ pre last later, pages = pre ++ last :: later ∧
      (∀ p ∈ pre, hasNext p = true) ∧ hasNext last = false ∧
      GetNumberOfMergedPRs (pages.map Except.ok) =
        some ⟨((pre ++ [last]).map edgeCount).sum, none,
          none :: pre.map (fun p => some (endCursor p))⟩ ∧
      (none :: pre.map (fun p => some (endCursor p))).length = (pre ++ [last]).length := by
  obtain ⟨pre, last, later, hsplit, hpre, hlast⟩ := first_false_split pages h
  refine ⟨pre, last, later, hsplit, hpre, hlast, ?_, by simp⟩
  have := mergedPRsLoop_done pre last (later.map Except.ok) hpre hlast 0 none []
  rw [GetNumberOfMergedPRs, hsplit]
  simpa using this

theorem C4_merged_pr_total_witness :
    (∃ p ∈ samplePages, hasNext p = false) ∧
    GetNumberOfMergedPRs (samplePages.map Except.ok) =
      some ⟨3, none, [none, some "c1".toList]⟩ ∧
    ∃ pre last later, samplePages = pre ++ last :: later ∧
      (∀ p ∈ pre, hasNext p = true) ∧ hasNext last = false ∧
      GetNumberOfMergedPRs (samplePages.map Except.ok) =
        some ⟨((pre ++ [last]).map edgeCount).sum, none,
          none :: pre.map (fun p => some (endCursor p))⟩ ∧
      (none :: pre.map (fun p => some (endCursor p))).length = (pre ++ [last]).length :=
  ⟨by decide, by decide, C4_merged_pr_total samplePages (by decide)⟩

/-- Claim C5: when the pages served before the first failing query all have
hasNextPage = true, the function returns count 0 with that query's error,
whatever those pages held, and the failing query is the last one it issued
(one query per earlier page plus the failing one). -/
theorem C5_merged_pr_error (pre : List PRResponse) (e : String)
    (later : List (Except String PRResponse)) (hpre : ∀ p ∈ pre, hasNext p = true) :
    GetNumberOfMergedPRs (pre.map Except.ok ++ Except.error e :: later) =
        some ⟨0, some e, none :: pre.map (fun p => some (endCursor p))⟩ ∧
      (none :: pre.map (fun p => some (endCursor p))).length = pre.length + 1 := by
  refine ⟨?_, by simp⟩
  have := mergedPRsLoop_fail pre e later hpre 0 none []
  rw [GetNumberOfMergedPRs]
  simpa using this

theorem C5_merged_pr_error_witness :
    (∀ p ∈ samplePages.take 1, hasNext p = true) ∧
    GetNumberOfMergedPRs
        ((samplePages.take 1).map Except.ok ++
          Except.error "timeout" :: (samplePages.drop 1).map Except.ok) =
      some ⟨0, some "timeout", none :: (samplePages.take 1).map (fun p => some (endCursor p))⟩ ∧
    (none :: (samplePages.take 1).map (fun p => some (endCursor p))).length =
      (samplePages.take 1).length + 1 :=
  ⟨by decide, C5_merged_pr_error (samplePages.take 1) "timeout"
    ((samplePages.drop 1).map Except.ok) (by decide)⟩

/-! ## Rounding to `float64` -/

theorem log2_unique {r : ℚ} (hr : 0 < r) {a : ℤ} (h1 : (2 : ℚ) ^ a ≤ r)
    (h2 : r < (2 : ℚ) ^ (a + 1)) : Int.log 2 r = a := by
  have l1 : (2 : ℚ) ^ Int.log 2 r ≤ r := by
    have := Int.zpow_log_le_self (b := 2) (by norm_num) hr
    simpa using this
  have l2 : r < (2 : ℚ) ^ (Int.log 2 r + 1) := by
    have := Int.lt_zpow_succ_log_self (b := 2) (by norm_num) r
    simpa using this
  have e1 : Int.log 2 r < a + 1 :=
    (zpow_lt_zpow_iff_right₀ (by norm_num : (1 : ℚ) < 2)).mp (lt_of_le_of_lt l1 h2)
  have e2 : a < Int.log 2 r + 1 :=
    (zpow_lt_zpow_iff_right₀ (by norm_num : (1 : ℚ) < 2)).mp (lt_of_le_of_lt h1 l2)
  omega

theorem roundNearestEven_intCast (n : ℤ) : roundNearestEven (n : ℚ) = n := by
  simp [roundNearestEven]

theorem roundNearestEven_le {x : ℚ} {b : ℤ} (h : x ≤ (b : ℚ)) : roundNearestEven x ≤ b := by
  have hf : ⌊x⌋ ≤ b := Int.floor_le_iff.mpr (by linarith)
  have hup : 0 < x - (⌊x⌋ : ℚ) → ⌊x⌋ + 1 ≤ b := by
    intro hpos
    have hlt : (⌊x⌋ : ℚ) < (b : ℚ) := by linarith
    have : ⌊x⌋ < b := by exact_mod_cast hlt
    omega
  unfold roundNearestEven
  simp only
  split
  · exact hf
  · rename_i h1
    have hpos : 0 < x - (⌊x⌋ : ℚ) := by
      have : (1 : ℚ) / 2 ≤ x - (⌊x⌋ : ℚ) := not_lt.mp h1
      linarith
    split
    · exact hup hpos
    · split
      · exact hf
      · exact hup hpos

theorem le_roundNearestEven {x : ℚ} {a : ℤ} (h : (a : ℚ) ≤ x) : a ≤ roundNearestEven x := by
  have hf : a ≤ ⌊x⌋ := Int.le_floor.mpr h
  unfold roundNearestEven
  simp only
  split
  · exact hf
  · split
    · omega
    · split
      · exact hf
      · omega

theorem ulp_pos (x : ℚ) : 0 < ulp x := zpow_pos (by norm_num) _

theorem roundFloat64_exact (x : ℚ) (N : ℤ) (h : x / ulp x = (N : ℚ)) : roundFloat64 x = x := by
  rw [roundFloat64, h, roundNearestEven_intCast, ← h]
  exact div_mul_cancel₀ x (ne_of_gt (ulp_pos x))

theorem roundFloat64_zero : roundFloat64 0 = 0 :=
  roundFloat64_exact 0 0 (by simp)

theorem roundFloat64_natCast (k : ℕ) (hk : k ≤ 2 ^ 53) : roundFloat64 (k : ℚ) = (k : ℚ) := by
  rcases Nat.eq_zero_or_pos k with h0 | hpos
  · subst h0
    simpa using roundFloat64_zero
  · have hlog : Int.log 2 |(k : ℚ)| = (Nat.log 2 k : ℤ) := by
      rw [abs_of_nonneg (Nat.cast_nonneg k)]
      exact Int.log_natCast 2 k
    have hn : Nat.log 2 k ≤ 53 := by
      calc Nat.log 2 k ≤ Nat.log 2 (2 ^ 53) := Nat.log_mono_right hk
        _ = 53 := Nat.log_pow (by norm_num) 53
    have hulp : ulp (k : ℚ) = (2 : ℚ) ^ ((Nat.log 2 k : ℤ) - 52) := by
      rw [ulp, hlog, max_eq_left (by omega)]
    rcases Nat.lt_or_ge (Nat.log 2 k) 53 with hlt | hge
    · refine roundFloat64_exact _ ((k * 2 ^ (52 - Nat.log 2 k) : ℕ) : ℤ) ?_
      rw [hulp]
      have hexp : ((Nat.log 2 k : ℤ) - 52) = -((52 - Nat.log 2 k : ℕ) : ℤ) := by omega
      rw [hexp, zpow_neg, zpow_natCast]
      push_cast
      field_simp
    · have hk53 : Nat.log 2 k = 53 := by omega
      have hle : 2 ^ 53 ≤ k := by
        have := Nat.pow_log_le_self 2 (Nat.pos_iff_ne_zero.mp hpos)
        rwa [hk53] at this
      have hkeq : k = 2 ^ 53 := le_antisymm hk hle
      refine roundFloat64_exact _ ((2 : ℤ) ^ 52) ?_
      rw [hulp, hk53, hkeq]
      norm_num

theorem roundFloat64_saturate : roundFloat64 ((2 : ℚ) ^ 53 + 1) = (2 : ℚ) ^ 53 := by
  have hlog : Int.log 2 |(2 : ℚ) ^ 53 + 1| = 53 := by
    rw [abs_of_pos (by norm_num)]
    exact log2_unique (by norm_num) (by norm_num) (by norm_num)
  have hulp : ulp ((2 : ℚ) ^ 53 + 1) = 2 := by
    rw [ulp, hlog]; norm_num
  have hfloor : ⌊((2 : ℚ) ^ 53 + 1) / 2⌋ = 2 ^ 52 := by
    rw [Int.floor_eq_iff]; norm_num
  rw [roundFloat64, hulp, roundNearestEven]
  simp only [hfloor]
  norm_num

theorem roundFloat64_two_thirds :
    roundFloat64 (2 / 3) = 6004799503160661 / 9007199254740992 := by
  have hlog : Int.log 2 |(2 : ℚ) / 3| = -1 := by
    rw [abs_of_pos (by norm_num)]
    exact log2_unique (by norm_num) (by norm_num) (by norm_num)
  have hulp : ulp ((2 : ℚ) / 3) = 1 / 2 ^ 53 := by
    rw [ulp, hlog]; norm_num
  have hfloor : ⌊((2 : ℚ) / 3) / (1 / 2 ^ 53)⌋ = 6004799503160661 := by
    rw [Int.floor_eq_iff]; norm_num
  rw [roundFloat64, hulp, roundNearestEven]
  simp only [hfloor]
  norm_num

theorem roundFloat64_unit {q : ℚ} (h0 : 0 ≤ q) (h1 : q ≤ 1) :
    0 ≤ roundFloat64 q ∧ roundFloat64 q ≤ 1 := by
  have hlog : Int.log 2 |q| ≤ 0 := by
    rw [abs_of_nonneg h0]
    rcases eq_or_lt_of_le h0 with hz | hpos
    · rw [← hz, Int.log_of_right_le_zero 2 le_rfl]
    · have l1 : (2 : ℚ) ^ Int.log 2 q ≤ q := by
        have := Int.zpow_log_le_self (b := 2) (by norm_num) hpos
        simpa using this
      have : (2 : ℚ) ^ Int.log 2 q ≤ (2 : ℚ) ^ (0 : ℤ) := by
        rw [zpow_zero]; exact le_trans l1 h1
      exact (zpow_le_zpow_iff_right₀ (by norm_num : (1 : ℚ) < 2)).mp this
  obtain ⟨m, hm⟩ : ∃ m : ℕ, ulp q = ((2 : ℚ) ^ m)⁻¹ := by
    refine ⟨(52 - max (Int.log 2 |q|) (-1022)).toNat, ?_⟩
    rw [ulp, ← zpow_natCast, ← zpow_neg]
    congr 1
    have : max (Int.log 2 |q|) (-1022) ≤ 0 := max_le hlog (by norm_num)
    omega
  have hpow : (0 : ℚ) < (2 : ℚ) ^ m := pow_pos (by norm_num) m
  constructor
  · rw [roundFloat64]
    apply mul_nonneg _ (le_of_lt (ulp_pos q))
    have : (0 : ℤ) ≤ roundNearestEven (q / ulp q) :=
      le_roundNearestEven (by
        simpa using div_nonneg h0 (le_of_lt (ulp_pos q)))
    exact_mod_cast this
  · rw [roundFloat64]
    have hb : roundNearestEven (q / ulp q) ≤ ((2 ^ m : ℕ) : ℤ) := by
      apply roundNearestEven_le
      rw [hm, div_inv_eq_mul]
      push_cast
      calc q * 2 ^ m ≤ 1 * 2 ^ m := mul_le_mul_of_nonneg_right h1 (le_of_lt hpow)
        _ = 2 ^ m := one_mul _
    have hbq : (roundNearestEven (q / ulp q) : ℚ) ≤ (2 : ℚ) ^ m := by exact_mod_cast hb
    rw [hm] at hbq ⊢
    calc (roundNearestEven (q / ((2 : ℚ) ^ m)⁻¹) : ℚ) * ((2 : ℚ) ^ m)⁻¹
        ≤ (2 : ℚ) ^ m * ((2 : ℚ) ^ m)⁻¹ :=
          mul_le_mul_of_nonneg_right hbq (le_of_lt (inv_pos.mpr hpow))
      _ = 1 := mul_inv_cancel₀ (ne_of_gt hpow)

/-! ## Pinning score -/

/-- Adding 1 to a counter: exact below `2 ^ 53`, absorbed from there on. -/
theorem fadd_one (n : ℕ) :
    fadd ((min n (2 ^ 53) : ℕ) : ℚ) 1 = ((min (n + 1) (2 ^ 53) : ℕ) : ℚ) := by
  rcases Nat.lt_or_ge n (2 ^ 53) with hlt | hge
  · rw [min_eq_left (le_of_lt hlt), min_eq_left (by omega), fadd]
    have := roundFloat64_natCast (n + 1) (by omega)
    push_cast at this ⊢
    exact this
  · rw [min_eq_right hge, min_eq_right (by omega), fadd]
    push_cast
    exact roundFloat64_saturate

theorem foldl_scoreStep (vs : List (List Char)) :
    ∀ t v : ℕ, vs.foldl scoreStep (((min t (2 ^ 53) : ℕ) : ℚ), ((min v (2 ^ 53) : ℕ) : ℚ)) =
      (((min (t + vs.length) (2 ^ 53) : ℕ) : ℚ),
        ((min (v + vs.countP MatchString) (2 ^ 53) : ℕ) : ℚ)) := by
  induction vs with
  | nil => intro t v; simp
  | cons x xs ih =>
    intro t v
    rw [List.foldl_cons]
    cases hx : MatchString x
    · have hstep : scoreStep (((min t (2 ^ 53) : ℕ) : ℚ), ((min v (2 ^ 53) : ℕ) : ℚ)) x =
          (((min (t + 1) (2 ^ 53) : ℕ) : ℚ), ((min v (2 ^ 53) : ℕ) : ℚ)) := by
        simp only [scoreStep, hx, Bool.not_false, if_true, fadd_one]
      rw [hstep, ih (t + 1) v, List.countP_cons, List.length_cons]
      simp only [hx, Bool.false_eq_true, if_false, Nat.add_zero]
      rw [show t + 1 + xs.length = t + (xs.length + 1) by omega]
    · have hstep : scoreStep (((min t (2 ^ 53) : ℕ) : ℚ), ((min v (2 ^ 53) : ℕ) : ℚ)) x =
          (((min (t + 1) (2 ^ 53) : ℕ) : ℚ), ((min (v + 1) (2 ^ 53) : ℕ) : ℚ)) := by
        simp only [scoreStep, hx, Bool.not_true, Bool.false_eq_true, if_false, fadd_one]
      rw [hstep, ih (t + 1) (v + 1), List.countP_cons, List.length_cons]
      simp only [hx, if_true]
      rw [show t + 1 + xs.length = t + (xs.length + 1) by omega,
        show v + 1 + List.countP MatchString xs = v + (List.countP MatchString xs + 1) by omega]

/-- The returned value in terms of the two counts: each counter holds its
count up to `2 ^ 53` and stays there, and the quotient is rounded. -/
theorem pinningScore_eq (deps : List (List Char × List Char)) :
    pinningScore deps =
      if deps.length = 0 then 1
      else roundFloat64 (((min (pinnedCount deps) (2 ^ 53) : ℕ) : ℚ) /
        ((min deps.length (2 ^ 53) : ℕ) : ℚ)) := by
  unfold pinningScore
  split
  · rfl
  · have h := foldl_scoreStep (deps.map Prod.snd) 0 0
    simp only [Nat.zero_min, Nat.cast_zero, Nat.zero_add, List.length_map,
      List.countP_map] at h
    simp only [h, fdiv, pinnedCount]
    rfl

theorem pinnedCount_le (deps : List (List Char × List Char)) :
    pinnedCount deps ≤ deps.length := List.countP_le_length _

theorem pinningScore_unit (deps : List (List Char × List Char)) :
    0 ≤ pinningScore deps ∧ pinningScore deps ≤ 1 := by
  rw [pinningScore_eq]
  split
  · exact ⟨zero_le_one, le_rfl⟩
  · rename_i hne
    have hpos : (0 : ℚ) < ((min deps.length (2 ^ 53) : ℕ) : ℚ) := by
      have : 0 < min deps.length (2 ^ 53) := by
        rw [Nat.lt_min]; exact ⟨Nat.pos_of_ne_zero hne, by norm_num⟩
      exact_mod_cast this
    have hle : ((min (pinnedCount deps) (2 ^ 53) : ℕ) : ℚ) ≤
        ((min deps.length (2 ^ 53) : ℕ) : ℚ) := by
      have : min (pinnedCount deps) (2 ^ 53) ≤ min deps.length (2 ^ 53) :=
        min_le_min (pinnedCount_le deps) le_rfl
      exact_mod_cast this
    exact roundFloat64_unit (div_nonneg (Nat.cast_nonneg _) (le_of_lt hpos))
      ((div_le_one hpos).mpr hle)

theorem pinningScore_sample :
    pinningScore [("a".toList, "1.2.3".toList), ("b".toList, "^2.0.0".toList),
      ("c".toList, "4".toList)] = 6004799503160661 / 9007199254740992 := by
  rw [pinningScore_eq]
  have hc : pinnedCount [("a".toList, "1.2.3".toList), ("b".toList, "^2.0.0".toList),
      ("c".toList, "4".toList)] = 2 := by decide
  rw [hc]
  have hq : ((min 2 (2 ^ 53) : ℕ) : ℚ) /
      ((min [("a".toList, "1.2.3".toList), ("b".toList, "^2.0.0".toList),
        ("c".toList, "4".toList)].length (2 ^ 53) : ℕ) : ℚ) = 2 / 3 := by
    norm_num
  rw [if_neg (by simp), hq]
  exact roundFloat64_two_thirds

/-- Claim C1 as stated fails: on the example map with the versions 1.2.3,
^2.0.0 and 4 the quotient pinned_count / total_count is 2/3, and the returned
value is the float64 6004799503160661 / 2^53, which is not 2/3. -/
theorem C1_counterexample :
    (pinnedCount [("a".toList, "1.2.3".toList), ("b".toList, "^2.0.0".toList),
        ("c".toList, "4".toList)] : ℚ) /
      ([("a".toList, "1.2.3".toList), ("b".toList, "^2.0.0".toList),
        ("c".toList, "4".toList)].length : ℚ) = 2 / 3 ∧
    pinningScore [("a".toList, "1.2.3".toList), ("b".toList, "^2.0.0".toList),
      ("c".toList, "4".toList)] = 6004799503160661 / 9007199254740992 ∧
    pinningScore [("a".toList, "1.2.3".toList), ("b".toList, "^2.0.0".toList),
      ("c".toList, "4".toList)] ≠ 2 / 3 := by
  have hc : pinnedCount [("a".toList, "1.2.3".toList), ("b".toList, "^2.0.0".toList),
      ("c".toList, "4".toList)] = 2 := by decide
  refine ⟨by rw [hc]; norm_num, pinningScore_sample, ?_⟩
  rw [pinningScore_sample]
  norm_num

/-- Claim C1, amended: the scoring step returns exactly 1 on a map without
entries; on a map with entries (at most 2^53 of them) it returns the float64
nearest to pinned_count / total_count, ties to even; the result lies in
[0,1]; visiting the entries in another order gives the same result; the
example map with the versions 1.2.3, ^2.0.0 and 4 gives the float64 nearest
to 2/3, which is 6004799503160661 / 2^53. -/
theorem C1_pinning_ratio (deps deps2 : List (List Char × List Char))
    (hperm : deps.Perm deps2) :
    (deps.length ≤ 2 ^ 53 →
      pinningScore deps =
        if deps.length = 0 then 1
        else roundFloat64 ((pinnedCount deps : ℚ) / (deps.length : ℚ))) ∧
    0 ≤ pinningScore deps ∧ pinningScore deps ≤ 1 ∧
    pinningScore deps2 = pinningScore deps ∧
    pinningScore [("a".toList, "1.2.3".toList), ("b".toList, "^2.0.0".toList),
      ("c".toList, "4".toList)] = 6004799503160661 / 9007199254740992 := by
  refine ⟨?_, (pinningScore_unit deps).1, (pinningScore_unit deps).2, ?_, pinningScore_sample⟩
  · intro hlen
    rw [pinningScore_eq, min_eq_left hlen,
      min_eq_left (le_trans (pinnedCount_le deps) hlen)]
  · rw [pinningScore_eq, pinningScore_eq, pinnedCount, pinnedCount, hperm.length_eq,
      hperm.countP_eq]

theorem C1_pinning_ratio_witness :
    ([("a".toList, "1".toList), ("b".toList, "x".toList)].length ≤ 2 ^ 53 →
      pinningScore [("a".toList, "1".toList), ("b".toList, "x".toList)] =
        if [("a".toList, "1".toList), ("b".toList, "x".toList)].length = 0 then 1
        else roundFloat64
          ((pinnedCount [("a".toList, "1".toList), ("b".toList, "x".toList)] : ℚ) /
            ([("a".toList, "1".toList), ("b".toList, "x".toList)].length : ℚ))) ∧
    pinningScore [("b".toList, "x".toList), ("a".toList, "1".toList)] =
      pinningScore [("a".toList, "1".toList), ("b".toList, "x".toList)] := by
  have h := C1_pinning_ratio [("a".toList, "1".toList), ("b".toList, "x".toList)]
    [("b".toList, "x".toList), ("a".toList, "1".toList)] (List.Perm.swap _ _ _)
  exact ⟨h.1, h.2.2.2.1⟩

/-- Claim C8 as stated fails: the map without entries has no matching
version specifier, yet it scores 1 and not 0. -/
theorem C8_counterexample :
    (∀ d ∈ ([] : List (List Char × List Char)), MatchString d.2 = false) ∧
    pinningScore [] = 1 ∧
    ¬ (∀ deps : List (List Char × List Char),
        ((∀ d ∈ deps, MatchString d.2 = true) → pinningScore deps = 1) ∧
        ((∀ d ∈ deps, MatchString d.2 = false) → pinningScore deps = 0)) := by
  refine ⟨by simp, by simp [pinningScore], ?_⟩
  intro h
  have h0 := (h []).2 (by simp)
  simp [pinningScore] at h0

/-- Claim C8, amended: a map in which every version specifier matches scores
1; a map with at least one entry in which no version specifier matches
scores 0. -/
theorem C8_all_or_none (deps : List (List Char × List Char)) :
    ((∀ d ∈ deps, MatchString d.2 = true) → pinningScore deps = 1) ∧
    (deps ≠ [] → (∀ d ∈ deps, MatchString d.2 = false) → pinningScore deps = 0) := by
  constructor
  · intro hall
    rw [pinningScore_eq]
    split
    · rfl
    · rename_i hne
      have hcount : pinnedCount deps = deps.length := by
        rw [pinnedCount, List.countP_eq_length]
        intro d hd
        exact hall d hd
      rw [hcount]
      have hpos : ((min deps.length (2 ^ 53) : ℕ) : ℚ) ≠ 0 := by
        have : 0 < min deps.length (2 ^ 53) := by
          rw [Nat.lt_min]; exact ⟨Nat.pos_of_ne_zero hne, by norm_num⟩
        exact_mod_cast (Nat.pos_iff_ne_zero.mp this)
      rw [div_self hpos]
      simpa using roundFloat64_natCast 1 (by norm_num)
  · intro hne hnone
    rw [pinningScore_eq]
    have hlen : deps.length ≠ 0 := fun h0 => hne (List.length_eq_zero.mp h0)
    rw [if_neg hlen]
    have hcount : pinnedCount deps = 0 := by
      rw [pinnedCount, List.countP_eq_zero]
      intro d hd
      simp [hnone d hd]
    rw [hcount]
    simpa using roundFloat64_zero

theorem C8_all_or_none_witness :
    pinningScore [("a".toList, "1.2.3".toList)] = 1 ∧
    pinningScore [("a".toList, "^1.2.3".toList)] = 0 :=
  ⟨(C8_all_or_none [("a".toList, "1.2.3".toList)]).1 (by decide),
   (C8_all_or_none [("a".toList, "^1.2.3".toList)]).2 (by decide) (by decide)⟩

/-! ## Default branch extraction -/

theorem defaultBranchKey_length : defaultBranchKey.length = 16 := by decide

theorem comma_mem_iff (t : List Char) : ',' ∈ t ↔ ",".toList <:+: t := by
  constructor
  · intro h
    obtain ⟨a, b, hab⟩ := List.append_of_mem h
    exact ⟨a, b, by rw [hab]; simp⟩
  · rintro ⟨a, b, hab⟩
    rw [← hab]
    simp

/-- Trace of the extraction on a body whose first key occurrence is at `pre`. -/
theorem extraction_trace (pre post : List Char)
    (hidx : indexOf? defaultBranchKey (pre ++ (defaultBranchKey ++ post)) = some pre.length) :
    start_index (pre ++ (defaultBranchKey ++ post)) = (pre.length : Int) + 16 ∧
    end_index (pre ++ (defaultBranchKey ++ post)) =
      some (Index post ",".toList + ((pre.length : Int) + 16)) := by
  have hstart : start_index (pre ++ (defaultBranchKey ++ post)) = (pre.length : Int) + 16 := by
    simp [start_index, Index, hidx, defaultBranchKey_length]
  refine ⟨hstart, ?_⟩
  have hdrop : (pre ++ (defaultBranchKey ++ post)).drop (pre.length + 16) = post := by
    rw [← defaultBranchKey_length, ← List.length_append, ← List.append_assoc,
      List.drop_left]
  have hnat : ((pre.length : Int) + 16).toNat = pre.length + 16 := by omega
  have hle : (pre.length : Int) + 16 ≤ ((pre ++ (defaultBranchKey ++ post)).length : Int) := by
    simp only [List.length_append, defaultBranchKey_length]
    push_cast
    omega
  rw [end_index, hstart, sliceFrom, if_pos ⟨by omega, hle⟩, hnat, hdrop]
  rfl

/-- Claim C10: for every response body that contains the key token, with
`post` the text after the first occurrence of the key: the extraction returns
a string exactly when `post` contains a comma; and when it contains none, the
computed end index is one less than the start index, the slice expression is
out of range and nothing is returned. -/
theorem C10_extraction_needs_comma (contents : List Char)
    (hkey : defaultBranchKey <:+: contents) :
    ∃ pre post, contents = pre ++ (defaultBranchKey ++ post) ∧
      (∀ p q : List Char, contents = p ++ (defaultBranchKey ++ q) → pre.length ≤ p.length) ∧
      ((GetDefaultBranchName contents).isSome = true ↔ ',' ∈ post) ∧
      (',' ∉ post →
        end_index contents = some (start_index contents - 1) ∧
        slice contents (start_index contents) (start_index contents - 1) = none ∧
        GetDefaultBranchName contents = none) := by
  obtain ⟨m, hm⟩ := indexOf?_isSome hkey
  have hdec := indexOf?_some hm
  have hmin := indexOf?_le hm
  have hmlen : (contents.take m).length = m := by
    have h1 := congrArg List.length hdec
    simp only [List.length_append, List.length_take, List.length_drop,
      defaultBranchKey_length] at h1
    rw [List.length_take]
    omega
  refine ⟨contents.take m, contents.drop (m + defaultBranchKey.length), hdec,
    fun p q hpq => by rw [hmlen]; exact hmin p q hpq, ?_⟩
  generalize contents.drop (m + defaultBranchKey.length) = post at hdec
  generalize contents.take m = pre at hdec hmlen
  subst hdec
  rw [← hmlen] at hm
  obtain ⟨hstart, hend⟩ := extraction_trace pre post hm
  have hclen : ((pre ++ (defaultBranchKey ++ post)).length : Int) =
      (pre.length : Int) + 16 + (post.length : Int) := by
    simp only [List.length_append, defaultBranchKey_length]
    push_cast
    omega
  cases hcomma : indexOf? ",".toList post with
  | none =>
    have hno : ',' ∉ post := fun h =>
      indexOf?_none hcomma ((comma_mem_iff post).mp h)
    have hidx : Index post ",".toList = -1 := by rw [Index, hcomma]
    have hend2 : end_index (pre ++ (defaultBranchKey ++ post)) =
        some (start_index (pre ++ (defaultBranchKey ++ post)) - 1) := by
      rw [hend, hstart, hidx]
      exact congrArg some (by omega)
    have hslice : slice (pre ++ (defaultBranchKey ++ post))
        (start_index (pre ++ (defaultBranchKey ++ post)))
        (start_index (pre ++ (defaultBranchKey ++ post)) - 1) = none := by
      rw [slice, if_neg]
      intro h
      omega
    have hnone : GetDefaultBranchName (pre ++ (defaultBranchKey ++ post)) = none := by
      rw [GetDefaultBranchName, hend2]
      simp [hslice]
    refine ⟨?_, fun _ => ⟨hend2, hslice, hnone⟩⟩
    rw [hnone]
    simp [hno]
  | some j =>
    have hpost := indexOf?_some hcomma
    have hyes : ',' ∈ post :=
      (comma_mem_iff post).mpr ⟨post.take j, post.drop (j + ",".toList.length), by
        rw [List.append_assoc]; exact hpost.symm⟩
    have hj : j + 1 ≤ post.length := by
      have h1 := congrArg List.length hpost
      simp only [List.length_append, List.length_take, List.length_drop] at h1
      have h2 : ",".toList.length = 1 := by decide
      omega
    have hidx : Index post ",".toList = (j : Int) := by rw [Index, hcomma]
    refine ⟨?_, fun hno => absurd hyes hno⟩
    have hsome : ∃ b, GetDefaultBranchName (pre ++ (defaultBranchKey ++ post)) = some b := by
      rw [GetDefaultBranchName, hend, hstart, hidx, Option.some_bind, slice, if_pos]
      · exact ⟨_, rfl⟩
      · refine ⟨by omega, by omega, ?_⟩
        rw [hclen]
        omega
    obtain ⟨b, hb⟩ := hsome
    rw [hb]
    simp [hyes]

theorem C10_extraction_needs_comma_witness :
    defaultBranchKey <:+: "\x7b\"default_branch\":\"main\"\x7d".toList ∧
    ∃ pre post, "\x7b\"default_branch\":\"main\"\x7d".toList = pre ++ (defaultBranchKey ++ post) ∧
      (∀ p q : List Char, "\x7b\"default_branch\":\"main\"\x7d".toList =
        p ++ (defaultBranchKey ++ q) → pre.length ≤ p.length) ∧
      ((GetDefaultBranchName "\x7b\"default_branch\":\"main\"\x7d".toList).isSome = true ↔
        ',' ∈ post) ∧
      (',' ∉ post →
        end_index "\x7b\"default_branch\":\"main\"\x7d".toList =
          some (start_index "\x7b\"default_branch\":\"main\"\x7d".toList - 1) ∧
        slice "\x7b\"default_branch\":\"main\"\x7d".toList
          (start_index "\x7b\"default_branch\":\"main\"\x7d".toList)
          (start_index "\x7b\"default_branch\":\"main\"\x7d".toList - 1) = none ∧
        GetDefaultBranchName "\x7b\"default_branch\":\"main\"\x7d".toList = none) :=
  ⟨by decide, C10_extraction_needs_comma "\x7b\"default_branch\":\"main\"\x7d".toList (by decide)⟩

/-- Claim C6 fails on the code: on a body in which one space separates the
colon from the quoted branch name main, the extraction returns the space, the
opening quote and the name instead of the name, because after the colon is
trimmed the leading space shields the opening quote from the last trim.
Without that space the name is returned. -/
theorem C6_whitespace_not_trimmed :
    GetDefaultBranchName "\x7b\"id\":1,\"default_branch\": \"main\",\"x\":2\x7d".toList =
      some " \"main".toList ∧
    GetDefaultBranchName "\x7b\"id\":1,\"default_branch\": \"main\",\"x\":2\x7d".toList ≠
      some "main".toList ∧
    GetDefaultBranchName "\x7b\"id\":1,\"default_branch\":\"main\",\"x\":2\x7d".toList =
      some "main".toList := by decide

/-- For every input the manifest URL is the raw-content host, the extracted
segment, a slash, the branch and then two slashes before the file name. -/
theorem GetVersionPinningResponse_link_eq (u b : List Char) :
    ∃ seg, lastLink u = some seg ∧
      GetVersionPinningResponse_link u b =
        some ("https://raw.githubusercontent.com/".toList ++ seg ++ "/".toList ++ b ++
          "//package.json".toList) := by
  obtain ⟨seg, hlast, _, _⟩ := lastLink_spec u
  refine ⟨seg, hlast, ?_⟩
  rw [GetVersionPinningResponse_link, hlast]
  simp

/-- Claim C7 fails on the code: for the repository URL of foo/bar and branch
main the manifest URL ends in main//package.json, with two slashes after the
branch, and differs from the URL the claim states. -/
theorem C7_manifest_url_double_slash :
    GetVersionPinningResponse_link "https://github.com/foo/bar".toList "main".toList =
      some "https://raw.githubusercontent.com/foo/bar/main//package.json".toList ∧
    GetVersionPinningResponse_link "https://github.com/foo/bar".toList "main".toList ≠
      some ("https://raw.githubusercontent.com/".toList ++ "foo".toList ++ "/".toList ++
        "bar".toList ++ "/".toList ++ "main".toList ++ "/package.json".toList) := by decide

/-! ## The version classifier -/

theorem digit_cases (c : Char) (h : '0' ≤ c ∧ c ≤ '9') :
    c ∈ ['0', '1', '2', '3', '4', '5', '6', '7', '8', '9'] := by
  obtain ⟨h1, h2⟩ := h
  have h1n : 48 ≤ c.toNat := h1
  have h2n : c.toNat ≤ 57 := h2
  have hc : c = Char.ofNat c.toNat := (Char.ofNat_toNat c).symm
  generalize c.toNat = n at h1n h2n hc
  subst hc
  interval_cases n <;> decide

theorem mem_digitClass (x : List Char) :
    x ∈ digitClass.matches' ↔ ∃ c, x = [c] ∧ '0' ≤ c ∧ c ≤ '9' := by
  have hs : ∀ a : Char, x ∈ ({[a]} : Language Char) ↔ x = [a] := fun _ => Iff.rfl
  have hunf : x ∈ digitClass.matches' ↔
      ∃ c ∈ ['0', '1', '2', '3', '4', '5', '6', '7', '8', '9'], x = [c] := by
    simp only [digitClass, RegularExpression.matches'_add, RegularExpression.matches'_char,
      Language.mem_add, hs]
    simp [or_assoc]
  rw [hunf]
  constructor
  · rintro ⟨c, hc, rfl⟩
    refine ⟨c, rfl, ?_⟩
    simp only [List.mem_cons, List.mem_singleton, List.not_mem_nil, or_false] at hc
    rcases hc with h | h | h | h | h | h | h | h | h | h <;> subst h <;> decide
  · rintro ⟨c, rfl, hc⟩
    exact ⟨c, digit_cases c hc, rfl⟩

theorem flatten_singletons (cs : List Char) : (cs.map (fun c => [c])).flatten = cs := by
  induction cs with
  | nil => rfl
  | cons c cs ih => simp [ih]

theorem mem_digitsPlus (x : List Char) :
    x ∈ digitsPlus.matches' ↔ x ≠ [] ∧ ∀ c ∈ x, '0' ≤ c ∧ c ≤ '9' := by
  rw [digitsPlus, RegularExpression.matches'_mul, RegularExpression.matches'_star,
    Language.mem_mul]
  constructor
  · rintro ⟨a, ha, b, hb, rfl⟩
    obtain ⟨c, rfl, hc⟩ := (mem_digitClass a).mp ha
    obtain ⟨L, rfl, hL⟩ := Language.mem_kstar.mp hb
    refine ⟨by simp, ?_⟩
    intro d hd
    rcases List.mem_append.mp hd with h | h
    · rw [List.mem_singleton.mp h]; exact hc
    · obtain ⟨y, hy, hdy⟩ := List.mem_flatten.mp h
      obtain ⟨e, rfl, he⟩ := (mem_digitClass y).mp (hL y hy)
      rw [List.mem_singleton.mp hdy]; exact he
  · rintro ⟨hne, hall⟩
    cases x with
    | nil => exact absurd rfl hne
    | cons c cs =>
      refine ⟨[c], (mem_digitClass _).mpr ⟨c, rfl, hall c (List.mem_cons_self _ _)⟩, cs, ?_, rfl⟩
      refine Language.mem_kstar.mpr ⟨cs.map (fun c => [c]), (flatten_singletons cs).symm, ?_⟩
      intro y hy
      obtain ⟨d, hd, rfl⟩ := List.mem_map.mp hy
      exact (mem_digitClass _).mpr ⟨d, rfl, hall d (List.mem_cons_of_mem _ hd)⟩

theorem intercalate_dot (runs : List (List Char)) :
    ∀ run : List Char, List.intercalate ['.'] (run :: runs) =
      run ++ (runs.map (fun r => '.' :: r)).flatten := by
  induction runs with
  | nil => intro run; simp [List.intercalate, List.intersperse]
  | cons r rs ih =>
    intro run
    have h := ih r
    simp only [List.intercalate] at h ⊢
    simp only [List.intersperse, List.flatten_cons, List.map_cons] at h ⊢
    rw [h]
    simp

theorem MatchString_iff (s : List Char) : MatchString s = true ↔ DottedDigits s := by
  have hs : ∀ d : List Char, d ∈ ({['.']} : Language Char) ↔ d = ['.'] := fun _ => Iff.rfl
  rw [MatchString, RegularExpression.rmatch_iff_matches', pinPattern,
    RegularExpression.matches'_mul, RegularExpression.matches'_star,
    RegularExpression.matches'_mul, RegularExpression.matches'_char, Language.mem_mul]
  constructor
  · rintro ⟨a, ha, b, hb, rfl⟩
    obtain ⟨L, rfl, hL⟩ := Language.mem_kstar.mp hb
    have hshape : ∀ y ∈ L, y = '.' :: y.tail ∧ y.tail ∈ digitsPlus.matches' := by
      intro y hy
      obtain ⟨d, hd, r, hr, rfl⟩ := Language.mem_mul.mp (hL y hy)
      rw [(hs d).mp hd]
      exact ⟨rfl, hr⟩
    refine ⟨a, L.map List.tail, ?_, ?_⟩
    · intro r hr
      rcases List.mem_cons.mp hr with h | h
      · rw [h]; exact (mem_digitsPlus a).mp ha
      · obtain ⟨y, hy, rfl⟩ := List.mem_map.mp h
        exact (mem_digitsPlus _).mp (hshape y hy).2
    · rw [intercalate_dot, List.map_map]
      congr 2
      symm
      calc List.map ((fun r => '.' :: r) ∘ List.tail) L = List.map id L :=
            List.map_congr_left (fun y hy => ((hshape y hy).1).symm)
        _ = L := List.map_id L
  · rintro ⟨run, runs, hall, rfl⟩
    refine ⟨run, (mem_digitsPlus run).mpr (hall run (List.mem_cons_self _ _)),
      (runs.map (fun r => '.' :: r)).flatten, ?_, (intercalate_dot runs run).symm⟩
    refine Language.mem_kstar.mpr ⟨runs.map (fun r => '.' :: r), rfl, ?_⟩
    intro y hy
    obtain ⟨r, hr, rfl⟩ := List.mem_map.mp hy
    exact Language.mem_mul.mpr ⟨['.'], (hs _).mpr rfl, r,
      (mem_digitsPlus r).mpr (hall r (List.mem_cons_of_mem _ hr)), rfl⟩

/-- Claim C2: the classifier accepts a string exactly when the whole string
is one or more non-empty runs of ASCII digits separated by single dots; it
accepts 1.2.3 and 4 and rejects ^1.2.3, ~1.0, *, the empty string, and
strings with a leading, trailing or doubled dot. -/
theorem C2_classifier (s : List Char) :
    (MatchString s = true ↔ DottedDigits s) ∧
    MatchString "1.2.3".toList = true ∧ MatchString "4".toList = true ∧
    MatchString "^1.2.3".toList = false ∧ MatchString "~1.0".toList = false ∧
    MatchString "*".toList = false ∧ MatchString "".toList = false ∧
    MatchString ".1".toList = false ∧ MatchString "1.".toList = false ∧
    MatchString "1..2".toList = false :=
  ⟨MatchString_iff s, by decide, by decide, by decide, by decide, by decide, by decide,
    by decide, by decide, by decide⟩

end Github
